import Mathlib

/-!
Shallow embedding of the Monte Carlo dice simulator (`src/montecarlo.py`):
a `Die` with weighted faces, a `Game` rolling a list of dice, and an
`Analyzer` deriving statistics (jackpot count, per-roll face counts,
combination counts) from a played game's results table.

Conventions of the embedding:
* Python floats are modelled as rationals (`ℚ`).
* The pandas results DataFrame built by `Game.play` is stored column-major
  (`List (List α)`: one list of outcomes per die, as the source builds
  `outcomes[i] = die.roll(num_rolls)`); rows are recovered by `rowsOf`.
* Randomness is abstracted: the sampling primitive receives a stream
  `rand : Nat -> Nat` of draws and picks `faces[rand i % len faces]` for the
  i-th sample, so every theorem quantifies over all possible outcome
  sequences.
* Python exceptions are modelled by `Except Err`, with `Err` the abstract
  error kinds (TypeError / argument ValueError map to `invalidArgument`,
  the missing-face ValueError to `notFound`, the results-not-available
  ValueError to `invalidState`).
-/

/-- Abstract error kinds raised by the module. -/
inductive Err where
  | invalidArgument
  | notFound
  | invalidState
deriving DecidableEq, Repr

namespace MonteCarlo

/-- A die: the `die` DataFrame of `Die.__init__`, one `(face, weight)` row
per face, in construction order. -/
structure Die (α : Type) where
  die : List (α × ℚ)
deriving DecidableEq, Repr

/-- A game: the list of dice and the optional `_results` DataFrame of the
most recent play, stored column-major (one outcome column per die). -/
structure Game (α : Type) where
  dice : List (Die α)
  results : Option (List (List α))
deriving DecidableEq, Repr

/-- An analyzer: the wide results table captured (copied) at construction. -/
structure Analyzer (α : Type) where
  results : List (List α)
deriving DecidableEq, Repr

/-- Either shape returned by `Game.show_results`: the wide rolls-by-dice
table, or the melted long-format table of `(roll_number, die_number,
face_rolled)` triples. -/
inductive ResultsView (α : Type) where
  | wide (table : List (List α))
  | narrow (table : List (Nat × Nat × α))
deriving DecidableEq, Repr

variable {α : Type} [LinearOrder α] [Inhabited α]

instance : Inhabited (Die α) := ⟨⟨[]⟩⟩

/-- The `face` column of the die DataFrame. -/
def Die.faces (d : Die α) : List α := d.die.map Prod.fst

/-- The `weight` column of the die DataFrame. -/
def Die.weights (d : Die α) : List ℚ := d.die.map Prod.snd

/-- Embedding of `Die.__init__(faces)`: builds the DataFrame with every weight 1.0.
The source's `isinstance(faces, (list, np.ndarray))` TypeError is enforced
here by the type of `faces`; the source performs NO distinctness check on
the faces (its docstring notwithstanding), so neither does the embedding. -/
def Die.init (faces : List α) : Die α := ⟨faces.map fun f => (f, (1 : ℚ))⟩

/-- Embedding of `Die.change_weight(face, new_weight)`: raises the missing-face
ValueError (`notFound`) when `face` is absent; otherwise assigns the new
weight to every row whose face equals `face` (the `.loc` mask assignment).
The source performs NO validation of `new_weight` itself. -/
def Die.change_weight (d : Die α) (face : α) (new_weight : ℚ) :
    Except Err (Die α) :=
  if face ∈ d.faces then
    .ok ⟨d.die.map fun fw => if fw.1 = face then (fw.1, new_weight) else fw⟩
  else
    .error .notFound

/-- Embedding of `Die.show_state()`: returns the die DataFrame. -/
def Die.show_state (d : Die α) : List (α × ℚ) := d.die

/-- The external weighted-sampling primitive `np.random.choice(a, size=n,
p=p)`: raises ValueError (`invalidArgument`) when the requested size is
negative, when `p` does not match `a` in length, contains a negative entry,
or does not sum to 1 (with exact rationals, dividing by a zero weight sum
yields all-zero probabilities, matching numpy's rejection of the NaN
probabilities that `weight/0.0` produces). Otherwise the `i`-th of the `n`
returned samples is the entry of `a` selected by the random stream. -/
def npChoice (a : List α) (n : ℤ) (p : List ℚ) (rand : Nat → Nat) :
    Except Err (List α) :=
  if n < 0 then .error .invalidArgument
  else if p.length ≠ a.length then .error .invalidArgument
  else if p.any fun x => decide (x < 0) then .error .invalidArgument
  else if p.sum ≠ 1 then .error .invalidArgument
  else .ok ((List.range n.toNat).map fun i => a.getD (rand i % a.length) default)

/-- Embedding of `Die.roll(num_rolls)`: samples `n` faces via `np.random.choice` with
probabilities `weight / weight.sum()` computed at call time. -/
def Die.roll (d : Die α) (n : ℤ) (rand : Nat → Nat) : Except Err (List α) :=
  npChoice d.faces n (d.weights.map fun w => w / d.weights.sum) rand

/-- The loop of `Game.play`: `for i, die in enumerate(self.dice):
outcomes[i] = die.roll(num_rolls)`, with `i` the enumeration counter and
`rand i` the random stream consumed by the i-th die. -/
def playCols (dice : List (Die α)) (n : ℤ) (rand : Nat → Nat → Nat)
    (i : Nat) : Except Err (List (List α)) :=
  match dice with
  | [] => .ok []
  | d :: rest =>
    match d.roll n (rand i) with
    | .error e => .error e
    | .ok c =>
      match playCols rest n rand (i + 1) with
      | .error e => .error e
      | .ok cs => .ok (c :: cs)

/-- Embedding of `Game.play(num_rolls)`: rolls every die `n` times and stores the
assembled DataFrame in `_results`, replacing any prior results. -/
def Game.play (g : Game α) (n : ℤ) (rand : Nat → Nat → Nat) :
    Except Err (Game α) :=
  (playCols g.dice n rand 0).map fun cols => { g with results := some cols }

/-- The row count of the column-major DataFrame: the length of its columns,
and 0 when there are no columns (`pd.DataFrame({})` is 0-by-0 regardless of
the requested roll count). -/
def numRows (cols : List (List α)) : Nat :=
  (cols.head?.map List.length).getD 0

/-- Row `i` of the DataFrame, for each `i` below the row count: the i-th
entry of every column. -/
def rowsOf (cols : List (List α)) : List (List α) :=
  (List.range (numRows cols)).map fun i => cols.map fun c => c.getD i default

/-- Embedding of `DataFrame.melt(var_name='die_number',
value_name='face_rolled', ignore_index=False)`: one `(roll_number, die_number, face_rolled)` triple
per cell, stacked column by column, keeping the original roll index. -/
def melt (cols : List (List α)) : List (Nat × Nat × α) :=
  cols.enum.flatMap fun jc => jc.2.enum.map fun iv => (iv.1, jc.1, iv.2)

/-- Embedding of `Game.show_results(form)`: raises `invalidState` when the game has not
been played, returns a copy of the wide table for `'wide'`, the melted
long table for `'narrow'`, and raises `invalidArgument` otherwise. -/
def Game.show_results (g : Game α) (form : String) :
    Except Err (ResultsView α) :=
  match g.results with
  | none => .error .invalidState
  | some cols =>
    if form = "wide" then .ok (.wide cols)
    else if form = "narrow" then .ok (.narrow (melt cols))
    else .error .invalidArgument

/-- Embedding of `Analyzer.__init__(game)`: captures `game.show_results()` (the wide
copy) at construction time; the `isinstance(game, Game)` TypeError is
enforced by the type of `g`. -/
def Analyzer.make (g : Game α) : Except Err (Analyzer α) :=
  match g.results with
  | none => .error .invalidState
  | some cols => .ok ⟨cols⟩

/-- Embedding of `Analyzer.jackpot()`: the number of rows whose `nunique` is 1, i.e.
whose entries have exactly one distinct value. -/
def Analyzer.jackpot (a : Analyzer α) : Nat :=
  ((rowsOf a.results).filter fun row => row.dedup.length == 1).length

/-- The union, in first-appearance order, of all faces occurring anywhere
in the table: the combined index of the per-row `value_counts` Series. -/
def allFaces (rows : List (List α)) : List α := rows.flatten.dedup

/-- Embedding of `Analyzer.face_counts_per_roll()`: `results.apply(lambda row:
row.value_counts(), axis=1).fillna(0).astype(int)` — one output row per
roll, one column per face ever rolled, each entry the count of that face
in that roll (0, via `fillna`, when the face is absent from the roll). -/
def Analyzer.face_counts_per_roll (a : Analyzer α) : List (List (α × Nat)) :=
  let rows := rowsOf a.results
  rows.map fun row => (allFaces rows).map fun f => (f, row.count f)

/-- Embedding of `Analyzer.combo()`: maps each row to `tuple(sorted(row))` and tabulates
`value_counts` of the resulting keys: one `(combination, count)` row per
distinct sorted tuple. -/
def Analyzer.combo (a : Analyzer α) : List (List α × Nat) :=
  let combos := (rowsOf a.results).map fun row => List.insertionSort (· ≤ ·) row
  combos.dedup.map fun c => (c, combos.count c)

/-- Embedding of `Analyzer.permutation_count()`: its body is character-for-character the
body of `face_counts_per_roll`. -/
def Analyzer.permutation_count (a : Analyzer α) : List (List (α × Nat)) :=
  let rows := rowsOf a.results
  rows.map fun row => (allFaces rows).map fun f => (f, row.count f)

/-- A concrete two-faced die `Die([1, 2])` used by the witnesses. -/
def d12 : Die ℤ := Die.init [1, 2]

/-- A concrete random source: every draw picks index 0. -/
def rand0 : Nat → Nat → Nat := fun _ _ => 0

/-- A concrete unplayed one-die game `Game([d12])`. -/
def gd0 : Game ℤ := ⟨[d12], none⟩

/-- The state of `gd0` after `play(2)` under `rand0`: both rolls pick face 1. -/
def gd1 : Game ℤ := ⟨[d12], some [[1, 1]]⟩

/-- The analyzer snapshotting `gd1`. -/
def a1 : Analyzer ℤ := ⟨[[1, 1]]⟩

/-- The state of `gd1` after a replay `play(1)` under `rand0`. -/
def gd2 : Game ℤ := ⟨[d12], some [[1]]⟩

/-- A die whose weights were both lowered to -1 through `change_weight`. -/
def dNeg : Die ℤ := ⟨[(1, -1), (2, -1)]⟩

/-- A die with weights 3 and -1: the weight sum is the positive number 2. -/
def dMix : Die ℤ := ⟨[(1, 3), (2, -1)]⟩

end MonteCarlo

namespace MonteCarlo

variable {α : Type} [LinearOrder α] [Inhabited α]

/-- A successful `np.random.choice` call had a non-negative size, returns
exactly that many samples, and every sample is an element of `a`. -/
theorem npChoice_ok_spec {a : List α} {n : ℤ} {p : List ℚ} {rand : Nat → Nat}
    {xs : List α} (h : npChoice a n p rand = .ok xs) :
    0 ≤ n ∧ xs.length = n.toNat ∧ ∀ x ∈ xs, x ∈ a := by
  unfold npChoice at h
  split_ifs at h with h1 h2 h3 h4
  all_goals try exact Except.noConfusion h
  rw [Except.ok.injEq] at h
  subst h
  refine ⟨not_lt.1 h1, by simp, ?_⟩
  intro x hx
  simp only [List.mem_map, List.mem_range] at hx
  obtain ⟨i, -, rfl⟩ := hx
  have hp : p ≠ [] := by
    intro he
    exact h4 (by simp [he])
  have ha : 0 < a.length := by
    rw [← not_ne_iff.mp h2]
    exact List.length_pos.mpr hp
  rw [List.getD_eq_getElem _ _ (Nat.mod_lt _ ha)]
  exact List.getElem_mem _

/-- A successful `Die.roll` call had a non-negative count, returns exactly
that many values, and every value is a face of the die. -/
theorem roll_ok_spec {d : Die α} {n : ℤ} {rand : Nat → Nat} {xs : List α}
    (h : d.roll n rand = .ok xs) :
    0 ≤ n ∧ xs.length = n.toNat ∧ ∀ x ∈ xs, x ∈ d.faces :=
  npChoice_ok_spec h

/-- Dividing every entry of a list by a constant divides its sum. -/
theorem sum_map_div (l : List ℚ) (s : ℚ) :
    (l.map fun w => w / s).sum = l.sum / s := by
  induction l with
  | nil => simp
  | cons x t ih => simp [ih, add_div]

/-- A roll with a non-negative count on a die whose weights are all
non-negative with positive sum succeeds and samples from the face set. -/
theorem roll_ok_of_nonneg (d : Die α) (n : ℤ) (rand : Nat → Nat)
    (hn : 0 ≤ n) (hw : ∀ w ∈ d.weights, 0 ≤ w) (hs : 0 < d.weights.sum) :
    ∃ xs, d.roll n rand = .ok xs ∧ xs.length = n.toNat ∧ ∀ x ∈ xs, x ∈ d.faces := by
  have hsne : d.weights.sum ≠ 0 := ne_of_gt hs
  have hp1 : (d.weights.map fun w => w / d.weights.sum).sum = 1 := by
    rw [sum_map_div, div_self hsne]
  have hany : ¬((d.weights.map fun w => w / d.weights.sum).any fun x =>
      decide (x < 0)) = true := by
    intro hcon
    rw [List.any_eq_true] at hcon
    obtain ⟨q, hq, hlt⟩ := hcon
    simp only [List.mem_map] at hq
    obtain ⟨w, hw', rfl⟩ := hq
    exact absurd (of_decide_eq_true hlt)
      (not_lt.2 (div_nonneg (hw w hw') hs.le))
  have hfpos : 0 < d.faces.length := by
    have hwne : d.weights ≠ [] := fun he => by simp [he] at hs
    have : d.die ≠ [] := fun he => hwne (by simp [Die.weights, he])
    simpa [Die.faces] using List.length_pos.mpr this
  refine ⟨(List.range n.toNat).map fun i =>
      d.faces.getD (rand i % d.faces.length) default, ?_, by simp, ?_⟩
  · unfold Die.roll npChoice
    rw [if_neg (not_lt.mpr hn), if_neg (by simp [Die.weights, Die.faces]),
      if_neg hany, if_neg (by rw [hp1]; simp)]
  · intro x hx
    simp only [List.mem_map, List.mem_range] at hx
    obtain ⟨i, -, rfl⟩ := hx
    rw [List.getD_eq_getElem _ _ (Nat.mod_lt _ hfpos)]
    exact List.getElem_mem _

/-- A successful play pairs each die, in order, with a column produced by a
successful roll of that die. -/
theorem playCols_ok_forall₂ {n : ℤ} {rand : Nat → Nat → Nat} :
    ∀ (dice : List (Die α)) (i : Nat) (cols : List (List α)),
      playCols dice n rand i = .ok cols →
      List.Forall₂ (fun d c => ∃ j, d.roll n (rand j) = .ok c) dice cols := by
  intro dice
  induction dice with
  | nil =>
    intro i cols h
    unfold playCols at h
    simp only [Except.ok.injEq] at h
    rw [← h]
    exact List.Forall₂.nil
  | cons d rest ih =>
    intro i cols h
    unfold playCols at h
    cases hroll : d.roll n (rand i) with
    | error e => rw [hroll] at h; simp at h
    | ok c =>
      rw [hroll] at h
      cases hrec : playCols rest n rand (i + 1) with
      | error e => rw [hrec] at h; simp at h
      | ok cs =>
        rw [hrec] at h
        simp only [Except.ok.injEq] at h
        rw [← h]
        exact List.Forall₂.cons ⟨i, hroll⟩ (ih (i + 1) cs hrec)

end MonteCarlo

namespace MonteCarlo

variable {α : Type} [LinearOrder α] [Inhabited α]

/-- Each member of the right list of a `Forall₂` is related to some member
of the left list. -/
theorem forall₂_mem_right {β γ : Type} {R : β → γ → Prop} :
    ∀ {bs : List β} {cs : List γ}, List.Forall₂ R bs cs →
      ∀ c ∈ cs, ∃ b ∈ bs, R b c := by
  intro bs cs h
  induction h with
  | nil => intro c hc; simp at hc
  | cons hR hF ih =>
    intro c' hc'
    rcases List.mem_cons.mp hc' with rfl | hmem
    · exact ⟨_, List.mem_cons_self _ _, hR⟩
    · obtain ⟨b', hb', hR'⟩ := ih c' hmem
      exact ⟨b', List.mem_cons_of_mem _ hb', hR'⟩

/-- Anatomy of a successful `Game.play`: the dice are unchanged, the stored
table has one column per die, produced by a successful roll of that die,
each of length `n`; the row count is `n` when there is at least one die; and
the outcome is the same whatever results were stored before the call. -/
theorem play_results_spec {g : Game α} {n : ℤ} {rand : Nat → Nat → Nat}
    {g' : Game α} (h : g.play n rand = .ok g') :
    ∃ cols, g' = ⟨g.dice, some cols⟩
      ∧ List.Forall₂ (fun d c => ∃ j, d.roll n (rand j) = .ok c) g.dice cols
      ∧ cols.length = g.dice.length
      ∧ (∀ c ∈ cols, c.length = n.toNat)
      ∧ (g.dice ≠ [] → 0 ≤ n ∧ numRows cols = n.toNat)
      ∧ (∀ r0 : Option (List (List α)),
          Game.play ⟨g.dice, r0⟩ n rand = .ok ⟨g.dice, some cols⟩) := by
  unfold Game.play at h
  cases hpc : playCols g.dice n rand 0 with
  | error e => rw [hpc] at h; exact Except.noConfusion h
  | ok cols =>
    rw [hpc] at h
    simp only [Except.map, Except.ok.injEq] at h
    have hF := playCols_ok_forall₂ g.dice 0 cols hpc
    have hlen : cols.length = g.dice.length := (List.Forall₂.length_eq hF).symm
    have hcol : ∀ c ∈ cols, c.length = n.toNat := by
      intro c hc
      obtain ⟨d, -, j, hroll⟩ := forall₂_mem_right hF c hc
      exact (roll_ok_spec hroll).2.1
    refine ⟨cols, by rw [← h], hF, hlen, hcol, ?_, ?_⟩
    · intro hne
      have hcne : cols ≠ [] := by
        intro he
        exact hne (List.length_eq_zero.mp (by rw [← hlen, he]; rfl))
      obtain ⟨c0, rest, rfl⟩ := List.exists_cons_of_ne_nil hcne
      obtain ⟨d, -, j, hroll⟩ := forall₂_mem_right hF c0 (List.mem_cons_self _ _)
      exact ⟨(roll_ok_spec hroll).1, by simp [numRows, hcol c0 (List.mem_cons_self _ _)]⟩
    · intro r0
      show (playCols g.dice n rand 0).map _ = _
      rw [hpc]
      rfl

/-- The derived row list has `numRows` entries. -/
theorem length_rowsOf (cols : List (List α)) :
    (rowsOf cols).length = numRows cols := by
  simp [rowsOf]

/-- Indexing the derived row list gives the i-th entry of every column. -/
theorem rowsOf_getD {cols : List (List α)} {i : Nat} (h : i < numRows cols) :
    (rowsOf cols).getD i [] = cols.map fun c => c.getD i default := by
  rw [List.getD_eq_getElem _ _ (by simpa [length_rowsOf] using h)]
  simp [rowsOf]

/-- Every member of the derived row list arises from a row index. -/
theorem mem_rowsOf {cols row} (h : row ∈ rowsOf (α := α) cols) :
    ∃ i, i < numRows cols ∧ row = cols.map fun c => c.getD i default := by
  simp only [rowsOf, List.mem_map, List.mem_range] at h
  obtain ⟨i, hi, rfl⟩ := h
  exact ⟨i, hi, rfl⟩

/-- Every derived row has one entry per column. -/
theorem rowsOf_row_length {cols row} (h : row ∈ rowsOf (α := α) cols) :
    row.length = cols.length := by
  obtain ⟨i, -, rfl⟩ := mem_rowsOf h
  simp

end MonteCarlo

namespace MonteCarlo

variable {α : Type} [LinearOrder α] [Inhabited α]

/-- Sums of pointwise sums of natural numbers split. -/
theorem sum_map_add_nat {β : Type} (l : List β) (f g : β → Nat) :
    (l.map fun b => f b + g b).sum = (l.map f).sum + (l.map g).sum := by
  induction l with
  | nil => simp
  | cons x t ih => simp only [List.map_cons, List.sum_cons, ih]; omega

/-- The indicator of a value absent from a list sums to 0 over the list. -/
theorem sum_map_ite_zero {β : Type} [BEq β] [LawfulBEq β] (x : β) :
    ∀ (faces : List β), x ∉ faces →
      (faces.map fun f => if x == f then 1 else 0).sum = 0 := by
  intro faces
  induction faces with
  | nil => simp
  | cons y t ih =>
    intro hx
    have hxy : ¬(x == y) = true := by
      simp only [beq_iff_eq]
      exact fun he => hx (he ▸ List.mem_cons_self _ _)
    simp only [List.map_cons, List.sum_cons, if_neg hxy]
    rw [ih fun hm => hx (List.mem_cons_of_mem _ hm)]

/-- The indicator of a member of a duplicate-free list sums to 1 over it. -/
theorem sum_map_ite_one {β : Type} [BEq β] [LawfulBEq β] {x : β} :
    ∀ {faces : List β}, faces.Nodup → x ∈ faces →
      (faces.map fun f => if x == f then 1 else 0).sum = 1 := by
  intro faces
  induction faces with
  | nil => intro _ hx; simp at hx
  | cons y t ih =>
    intro hnd hx
    rcases List.mem_cons.mp hx with rfl | hmem
    · simp only [List.map_cons, List.sum_cons]
      rw [sum_map_ite_zero x t (List.nodup_cons.mp hnd).1]
      simp
    · have hxy : ¬(x == y) = true := by
        simp only [beq_iff_eq]
        rintro rfl
        exact (List.nodup_cons.mp hnd).1 hmem
      simp only [List.map_cons, List.sum_cons, if_neg hxy]
      rw [ih (List.nodup_cons.mp hnd).2 hmem]

/-- Over a duplicate-free list of keys covering every element of `l`, the
occurrence counts of the keys in `l` sum to the length of `l`. -/
theorem sum_map_count_eq_length {β : Type} [BEq β] [LawfulBEq β]
    {faces l : List β} (hnd : faces.Nodup)
    (hsub : ∀ x ∈ l, x ∈ faces) :
    (faces.map fun f => l.count f).sum = l.length := by
  induction l with
  | nil => simp
  | cons x t ih =>
    have hx : x ∈ faces := hsub x (List.mem_cons_self _ _)
    have ht : ∀ y ∈ t, y ∈ faces := fun y hy => hsub y (List.mem_cons_of_mem _ hy)
    have hcc : (faces.map fun f => (x :: t).count f).sum
        = (faces.map fun f => t.count f + if x == f then 1 else 0).sum := by
      congr 1
      exact List.map_congr_left fun f _ => List.count_cons f x t
    rw [hcc, sum_map_add_nat, ih ht, sum_map_ite_one hnd hx]
    simp

/-- A duplicate-free list whose elements all equal `z`, with `z` a member,
is the singleton `[z]`. -/
theorem nodup_all_eq_singleton {β : Type} {l : List β} {z : β} (hnd : l.Nodup)
    (hz : z ∈ l) (hall : ∀ e ∈ l, e = z) : l = [z] := by
  cases l with
  | nil => simp at hz
  | cons a t =>
    have ha : a = z := hall a (List.mem_cons_self _ _)
    cases t with
    | nil => rw [ha]
    | cons b t' =>
      exfalso
      have hb : b = z := hall b (by simp)
      have : a ∈ b :: t' := by
        rw [ha, ← hb]
        exact List.mem_cons_self _ _
      exact (List.nodup_cons.mp hnd).1 this

/-- For a non-empty row, pandas `nunique == 1` says exactly that all the
row's entries are pairwise equal. -/
theorem dedup_length_one_iff {row : List α} (hne : row ≠ []) :
    (row.dedup.length == 1) = true ↔ ∀ x ∈ row, ∀ y ∈ row, x = y := by
  rw [beq_iff_eq]
  constructor
  · intro h1 x hx y hy
    obtain ⟨a, ha⟩ := List.length_eq_one.mp h1
    have hxa : x = a := by
      have hm := List.mem_dedup.mpr hx
      rw [ha] at hm
      simpa using hm
    have hya : y = a := by
      have hm := List.mem_dedup.mpr hy
      rw [ha] at hm
      simpa using hm
    rw [hxa, hya]
  · intro hall
    obtain ⟨z, t, rfl⟩ := List.exists_cons_of_ne_nil hne
    have hz : z ∈ (z :: t).dedup :=
      List.mem_dedup.mpr (List.mem_cons_self _ _)
    have hsing : (z :: t).dedup = [z] :=
      nodup_all_eq_singleton (List.nodup_dedup _) hz fun e he =>
        hall e (List.mem_dedup.mp he) z (List.mem_cons_self _ _)
    rw [hsing]
    rfl

/-- Two lists have the same insertion sort exactly when they are
permutations of one another. -/
theorem insertionSort_eq_iff_perm (x y : List α) :
    List.insertionSort (· ≤ ·) x = List.insertionSort (· ≤ ·) y ↔ x.Perm y := by
  constructor
  · intro h
    exact (List.perm_insertionSort _ x).symm.trans
      (h ▸ List.perm_insertionSort (· ≤ ·) y)
  · intro h
    exact List.eq_of_perm_of_sorted
      (((List.perm_insertionSort _ x).trans h).trans
        (List.perm_insertionSort _ y).symm)
      (List.sorted_insertionSort _ x) (List.sorted_insertionSort _ y)

end MonteCarlo

namespace MonteCarlo

variable {α : Type} [LinearOrder α] [Inhabited α]

/-- Indices produced by `enumFrom k` are at least `k`. -/
theorem fst_ge_of_mem_enumFrom {β : Type} {l : List β} {k : Nat} {t : Nat × β}
    (h : t ∈ List.enumFrom k l) : k ≤ t.1 := by
  obtain ⟨i, x⟩ := t
  exact (List.mk_mem_enumFrom_iff_le_and_getElem?_sub.mp h).1

/-- Filtering an enumeration for one in-range index keeps exactly the entry
at that index. -/
theorem enumFrom_filter_eq {c : List α} :
    ∀ (s i : Nat), i < c.length →
      (List.enumFrom s c).filter (fun iv => iv.1 == s + i)
        = [(s + i, c.getD i default)] := by
  induction c with
  | nil => intro s i hi; simp at hi
  | cons x t ih =>
    intro s i hi
    rw [List.enumFrom_cons, List.filter_cons]
    cases i with
    | zero =>
      rw [if_pos (by simp)]
      have hnil : (List.enumFrom (s + 1) t).filter (fun iv => iv.1 == s + 0) = [] := by
        rw [List.filter_eq_nil_iff]
        intro iv hiv
        have hle := fst_ge_of_mem_enumFrom hiv
        simp only [beq_iff_eq]
        omega
      rw [hnil]
      simp
    | succ j =>
      rw [if_neg (by simp)]
      rw [show s + (j + 1) = (s + 1) + j from by omega]
      rw [ih (s + 1) j (by simpa using hi)]
      simp

/-- Every die index occurring in the melted tail blocks is at least the
starting column index. -/
theorem melt_blocks_die_ge {k : Nat} :
    ∀ (cols : List (List α)) (t : Nat × Nat × α),
      t ∈ (List.enumFrom k cols).flatMap
        (fun jc => jc.2.enum.map fun iv => (iv.1, jc.1, iv.2)) → k ≤ t.2.1 := by
  intro cols t ht
  rw [List.mem_flatMap] at ht
  obtain ⟨jc, hjc, hmem⟩ := ht
  rw [List.mem_map] at hmem
  obtain ⟨iv, -, rfl⟩ := hmem
  simpa using fst_ge_of_mem_enumFrom hjc

/-- Filtering the melted table for one in-range cell address keeps exactly
that cell of the wide table. -/
theorem melt_filter_eq {m : Nat} :
    ∀ (cols : List (List α)) (k i j : Nat), (∀ c ∈ cols, c.length = m) →
      i < m → j < cols.length →
      ((List.enumFrom k cols).flatMap
          (fun jc => jc.2.enum.map fun iv => (iv.1, jc.1, iv.2))).filter
        (fun t => t.1 == i && t.2.1 == k + j)
        = [(i, k + j, (cols.getD j []).getD i default)] := by
  intro cols
  induction cols with
  | nil => intro k i j _ _ hj; simp at hj
  | cons c rest ih =>
    intro k i j hrect hi hj
    rw [List.enumFrom_cons, List.flatMap_cons, List.filter_append]
    cases j with
    | zero =>
      have hblock : (c.enum.map fun iv => ((iv.1 : Nat), k, iv.2)).filter
          (fun t => t.1 == i && t.2.1 == k + 0)
          = [(i, k + 0, (c.getD i default))] := by
        rw [List.filter_map]
        have hpred : ((fun t : Nat × Nat × α => t.1 == i && t.2.1 == k + 0) ∘
            fun iv : Nat × α => (iv.1, k, iv.2)) = fun iv => iv.1 == i := by
          funext iv
          simp [Function.comp]
        rw [hpred]
        have hc : i < c.length := by rw [hrect c (List.mem_cons_self _ _)]; exact hi
        have := enumFrom_filter_eq (c := c) 0 i hc
        rw [show List.enum c = List.enumFrom 0 c from rfl,
          show (fun iv : Nat × α => iv.1 == i) = fun iv => iv.1 == 0 + i from by
            funext iv; rw [Nat.zero_add], this]
        simp
      have htail : ((List.enumFrom (k + 1) rest).flatMap
          (fun jc => jc.2.enum.map fun iv => (iv.1, jc.1, iv.2))).filter
          (fun t => t.1 == i && t.2.1 == k + 0) = [] := by
        rw [List.filter_eq_nil_iff]
        intro t ht
        have := melt_blocks_die_ge rest t ht
        simp only [Bool.and_eq_true, beq_iff_eq, not_and]
        omega
      rw [hblock, htail]
      simp
    | succ j' =>
      have hblock : (c.enum.map fun iv => ((iv.1 : Nat), k, iv.2)).filter
          (fun t => t.1 == i && t.2.1 == k + (j' + 1)) = [] := by
        rw [List.filter_eq_nil_iff]
        intro t ht
        rw [List.mem_map] at ht
        obtain ⟨iv, -, rfl⟩ := ht
        simp only [Bool.and_eq_true, beq_iff_eq, not_and]
        omega
      have htail := ih (k + 1) i j'
        (fun c' hc' => hrect c' (List.mem_cons_of_mem _ hc')) hi (by simpa using hj)
      rw [hblock, show k + (j' + 1) = (k + 1) + j' from by omega, htail]
      simp

/-- The melted table has one entry per cell of a rectangular wide table. -/
theorem length_melt {m : Nat} (cols : List (List α))
    (hrect : ∀ c ∈ cols, c.length = m) :
    (melt cols).length = cols.length * m := by
  unfold melt
  rw [List.length_flatMap]
  have hmap : List.map (List.length ∘ fun jc : Nat × List α =>
      jc.2.enum.map fun iv => (iv.1, jc.1, iv.2)) cols.enum
      = List.map (List.length ∘ Prod.snd) cols.enum := by
    apply List.map_congr_left
    intro jc _
    simp [Function.comp]
  rw [hmap, ← List.map_map, List.enum_map_snd]
  have hrep : List.map List.length cols = List.replicate cols.length m := by
    have h1 : ∀ b ∈ List.map List.length cols, b = m := by
      intro b hb
      rw [List.mem_map] at hb
      obtain ⟨c, hc, rfl⟩ := hb
      exact hrect c hc
    have h2 := List.eq_replicate_of_mem h1
    rwa [List.length_map] at h2
  rw [hrep, List.sum_replicate, smul_eq_mul]

end MonteCarlo

namespace MonteCarlo

variable {α : Type} [LinearOrder α] [Inhabited α]

/-- A successfully constructed analyzer snapshots exactly the game's stored
results table. -/
theorem make_ok_results {g : Game α} {a : Analyzer α}
    (h : Analyzer.make g = .ok a) : g.results = some a.results := by
  unfold Analyzer.make at h
  cases hres : g.results with
  | none => rw [hres] at h; exact Except.noConfusion h
  | some cols =>
    rw [hres] at h
    rw [Except.ok.injEq] at h
    rw [← h]

/-- Unfolded form of `face_counts_per_roll`. -/
theorem face_counts_eq (a : Analyzer α) :
    a.face_counts_per_roll = (rowsOf a.results).map
      (fun row => (allFaces (rowsOf a.results)).map fun f => (f, row.count f)) := rfl

/-- Unfolded form of `combo`. -/
theorem combo_eq (a : Analyzer α) :
    a.combo = ((rowsOf a.results).map fun row =>
        List.insertionSort (· ≤ ·) row).dedup.map
      (fun c => (c, ((rowsOf a.results).map fun row =>
        List.insertionSort (· ≤ ·) row).count c)) := rfl

/-- Playing the concrete one-die game `gd0` twice under `rand0` yields the
stored table `[[1, 1]]`. -/
theorem play_gd0_eval : Game.play gd0 2 rand0 = .ok gd1 := by
  unfold gd0 gd1 rand0 Game.play playCols d12 Die.init Die.roll Die.weights
    Die.faces npChoice
  norm_num [List.range_succ]
  rfl

/-- Replaying `gd1` once under `rand0` yields the stored table `[[1]]`. -/
theorem play_gd1_eval : Game.play gd1 1 rand0 = .ok gd2 := by
  unfold gd1 gd2 rand0 Game.play playCols d12 Die.init Die.roll Die.weights
    Die.faces npChoice
  norm_num [List.range_succ]
  rfl

/-- Constructing the analyzer over the played game `gd1` succeeds with the
snapshot `a1`. -/
theorem make_gd1_eval : Analyzer.make gd1 = .ok a1 := rfl

/-- C2: for every Analyzer, `FaceCounts()` returns one row per roll; each
output row's column keys are exactly the union of all faces appearing
anywhere in the results table, each carrying an explicit (ℕ-valued, hence
non-negative integer) entry equal to the count of that face in the roll —
0 when the face is absent, never a missing cell — and each output row's
entries sum to the number of dice (columns) of the results table. -/
theorem face_counts_per_roll_spec (a : Analyzer α) :
    a.face_counts_per_roll.length = numRows a.results
    ∧ ∀ i, i < numRows a.results →
        (a.face_counts_per_roll.getD i []).map Prod.fst = allFaces (rowsOf a.results)
        ∧ (∀ fc ∈ a.face_counts_per_roll.getD i [],
            fc.2 = ((rowsOf a.results).getD i []).count fc.1)
        ∧ ((a.face_counts_per_roll.getD i []).map Prod.snd).sum = a.results.length := by
  constructor
  · rw [face_counts_eq]
    simp [length_rowsOf]
  intro i hi
  have hlen : i < (rowsOf a.results).length := by
    rw [length_rowsOf]
    exact hi
  have hget : a.face_counts_per_roll.getD i []
      = (allFaces (rowsOf a.results)).map
          (fun f => (f, ((rowsOf a.results).getD i []).count f)) := by
    rw [face_counts_eq, List.getD_eq_getElem _ [] (by simpa using hlen),
      List.getElem_map, ← List.getD_eq_getElem _ [] hlen]
  have hrow_mem : (rowsOf a.results).getD i [] ∈ rowsOf a.results := by
    rw [List.getD_eq_getElem _ [] hlen]
    exact List.getElem_mem _
  refine ⟨?_, ?_, ?_⟩
  · rw [hget, List.map_map]
    rw [show (Prod.fst ∘ fun f => (f, ((rowsOf a.results).getD i []).count f))
        = id from rfl, List.map_id]
  · intro fc hfc
    rw [hget] at hfc
    rw [List.mem_map] at hfc
    obtain ⟨f, -, rfl⟩ := hfc
    rfl
  · rw [hget, List.map_map]
    rw [show (Prod.snd ∘ fun f => (f, ((rowsOf a.results).getD i []).count f))
        = fun f => ((rowsOf a.results).getD i []).count f from rfl]
    have hnd : (allFaces (rowsOf a.results)).Nodup := List.nodup_dedup _
    have hsub : ∀ x ∈ (rowsOf a.results).getD i [],
        x ∈ allFaces (rowsOf a.results) := by
      intro x hx
      exact List.mem_dedup.mpr (List.mem_flatten.mpr ⟨_, hrow_mem, hx⟩)
    rw [sum_map_count_eq_length hnd hsub]
    exact rowsOf_row_length hrow_mem

/-- C10: the undocumented `permutation_count()` returns exactly the table
returned by `face_counts_per_roll()` on the same snapshot: the two methods
are extensionally identical. -/
theorem permutation_count_eq_face_counts (a : Analyzer α) :
    a.permutation_count = a.face_counts_per_roll := rfl

end MonteCarlo

namespace MonteCarlo

variable {α : Type} [LinearOrder α] [Inhabited α]

/-- C3: for every Analyzer constructed from a played Game, `Jackpot()` is
at most the number of rolls, equals the number of rows of the results
table in which every die column holds the identical face value, and for a
Game with exactly one die equals the roll count. -/
theorem jackpot_spec {g g' : Game α} {n : ℤ} {rand : Nat → Nat → Nat}
    {a : Analyzer α} (hp : g.play n rand = .ok g')
    (ha : Analyzer.make g' = .ok a) :
    a.jackpot ≤ numRows a.results
    ∧ a.jackpot = ((rowsOf a.results).filter fun row =>
        decide (∀ x ∈ row, ∀ y ∈ row, x = y)).length
    ∧ (g.dice.length = 1 → a.jackpot = numRows a.results) := by
  obtain ⟨cols, rfl, hF, hlen, hcol, -, -⟩ := play_results_spec hp
  have hres : cols = a.results := by
    have h2 := make_ok_results ha
    simp only [Option.some.injEq] at h2
    exact h2
  subst hres
  refine ⟨?_, ?_, ?_⟩
  · show ((rowsOf a.results).filter fun row =>
        row.dedup.length == 1).length ≤ numRows a.results
    calc ((rowsOf a.results).filter fun row => row.dedup.length == 1).length
        ≤ (rowsOf a.results).length := List.length_filter_le _ _
      _ = numRows a.results := length_rowsOf a.results
  · show ((rowsOf a.results).filter fun row => row.dedup.length == 1).length = _
    apply congrArg List.length
    apply List.filter_congr
    intro row hrow
    have hrl : row.length = a.results.length := rowsOf_row_length hrow
    have hne : row ≠ [] := by
      intro he
      obtain ⟨i, hi, -⟩ := mem_rowsOf hrow
      have hcne : a.results = [] := by
        rw [he] at hrl
        exact List.length_eq_zero.mp hrl.symm
      rw [hcne] at hi
      simp [numRows] at hi
    symm
    rw [Bool.eq_iff_iff, decide_eq_true_eq]
    exact (dedup_length_one_iff hne).symm
  · intro h1
    have hall : ∀ row ∈ rowsOf a.results, (row.dedup.length == 1) = true := by
      intro row hrow
      have hrl : row.length = 1 := by
        rw [rowsOf_row_length hrow, hlen, h1]
      obtain ⟨x, rfl⟩ := List.length_eq_one.mp hrl
      simp
    show ((rowsOf a.results).filter fun row =>
        row.dedup.length == 1).length = numRows a.results
    rw [List.filter_eq_self.mpr hall, length_rowsOf]

/-- C4 (amended): for every Game and n ≥ 0, a successful `Play(n)` followed
by `ShowResults('wide')` yields a table with one column per die, each of
length n, whose row count is exactly n whenever the Game has at least one
die (a Game with no dice stores the empty 0-row table); every cell of
column j is a face of the j-th die; and the stored table replaces any
prior results entirely — the play's outcome is the same whatever results
were stored before the call. -/
theorem play_show_results_wide_spec {g g' : Game α} {n : ℤ}
    {rand : Nat → Nat → Nat} (hn : 0 ≤ n) (hp : g.play n rand = .ok g') :
    ∃ cols, g'.show_results "wide" = .ok (.wide cols)
      ∧ cols.length = g.dice.length
      ∧ (∀ c ∈ cols, c.length = n.toNat)
      ∧ (g.dice ≠ [] → numRows cols = n.toNat)
      ∧ List.Forall₂ (fun (d : Die α) c => ∀ x ∈ c, x ∈ d.faces) g.dice cols
      ∧ ∀ r0 : Option (List (List α)),
          Game.play ⟨g.dice, r0⟩ n rand = .ok ⟨g.dice, some cols⟩ := by
  obtain ⟨cols, rfl, hF, hlen, hcol, hnr, hreplace⟩ := play_results_spec hp
  refine ⟨cols, rfl, hlen, hcol, fun hne => (hnr hne).2, ?_, hreplace⟩
  refine hF.imp ?_
  intro d c hdc
  obtain ⟨j, hroll⟩ := hdc
  exact (roll_ok_spec hroll).2.2

/-- C5: for every played Game, `ShowResults('narrow')` returns the
long-format table of (roll_number, die_number, face_rolled) triples with
exactly n × len(dice) rows, and filtering it for any in-range
(roll_number, die_number) address yields exactly one triple, carrying the
corresponding cell of the wide table — every wide cell appears exactly
once and regrouping by (roll_number, die_number) reconstructs the wide
table. -/
theorem show_results_narrow_spec {g g' : Game α} {n : ℤ}
    {rand : Nat → Nat → Nat} (hn : 0 ≤ n) (hp : g.play n rand = .ok g') :
    ∃ cols nt, g'.results = some cols
      ∧ g'.show_results "narrow" = .ok (.narrow nt)
      ∧ nt.length = g.dice.length * n.toNat
      ∧ ∀ i j, i < n.toNat → j < g.dice.length →
          nt.filter (fun t => t.1 == i && t.2.1 == j)
            = [(i, j, (cols.getD j []).getD i default)] := by
  obtain ⟨cols, rfl, hF, hlen, hcol, -, -⟩ := play_results_spec hp
  refine ⟨cols, melt cols, rfl, rfl, ?_, ?_⟩
  · rw [length_melt cols hcol, hlen]
  · intro i j hi hj
    have hjc : j < cols.length := by rw [hlen]; exact hj
    have := melt_filter_eq cols 0 i j hcol hi hjc
    unfold melt
    rw [show List.enum cols = List.enumFrom 0 cols from rfl]
    simpa using this

/-- C1: for every Analyzer over a non-empty results table, `Combo()` has
pairwise-distinct combination keys; every key is the sorted tuple of some
roll; every roll contributes the row whose key is its sorted tuple and
whose count is the number of rolls holding the same multiset of faces
(rolls that are permutations of it); and the counts sum to the total
number of rolls. -/
theorem combo_spec {g : Game α} {a : Analyzer α}
    (ha : Analyzer.make g = .ok a) (hne : rowsOf a.results ≠ []) :
    ((a.combo.map Prod.snd).sum = numRows a.results)
    ∧ (a.combo.map Prod.fst).Nodup
    ∧ (∀ p ∈ a.combo, ∃ r ∈ rowsOf a.results,
        p.1 = List.insertionSort (· ≤ ·) r)
    ∧ ∀ r ∈ rowsOf a.results,
        (List.insertionSort (· ≤ ·) r,
          ((rowsOf a.results).filter fun r2 => decide (r2.Perm r)).length)
          ∈ a.combo := by
  refine ⟨?_, ?_, ?_, ?_⟩
  · rw [combo_eq, List.map_map]
    rw [show (Prod.snd ∘ fun c => (c, ((rowsOf a.results).map fun row =>
        List.insertionSort (· ≤ ·) row).count c))
        = fun c => ((rowsOf a.results).map fun row =>
        List.insertionSort (· ≤ ·) row).count c from rfl]
    have hnd : (((rowsOf a.results).map fun row =>
        List.insertionSort (· ≤ ·) row).dedup).Nodup := List.nodup_dedup _
    have hsub : ∀ x ∈ (rowsOf a.results).map fun row =>
        List.insertionSort (· ≤ ·) row,
        x ∈ ((rowsOf a.results).map fun row =>
        List.insertionSort (· ≤ ·) row).dedup := fun x hx => List.mem_dedup.mpr hx
    rw [sum_map_count_eq_length hnd hsub, List.length_map, length_rowsOf]
  · rw [combo_eq, List.map_map]
    rw [show (Prod.fst ∘ fun c => (c, ((rowsOf a.results).map fun row =>
        List.insertionSort (· ≤ ·) row).count c)) = id from rfl, List.map_id]
    exact List.nodup_dedup _
  · intro p hp
    rw [combo_eq, List.mem_map] at hp
    obtain ⟨c, hc, rfl⟩ := hp
    rw [List.mem_dedup, List.mem_map] at hc
    obtain ⟨r, hr, rfl⟩ := hc
    exact ⟨r, hr, rfl⟩
  · intro r hr
    rw [combo_eq, List.mem_map]
    refine ⟨List.insertionSort (· ≤ ·) r,
      List.mem_dedup.mpr (List.mem_map.mpr ⟨r, hr, rfl⟩), ?_⟩
    have hcount : ((rowsOf a.results).map fun row =>
        List.insertionSort (· ≤ ·) row).count (List.insertionSort (· ≤ ·) r)
        = ((rowsOf a.results).filter fun r2 => decide (r2.Perm r)).length := by
      rw [List.count_eq_countP, List.countP_map, ← List.countP_eq_length_filter]
      apply List.countP_congr
      intro r2 hr2
      simp only [Function.comp, beq_iff_eq, decide_eq_true_eq]
      exact insertionSort_eq_iff_perm r2 r
    rw [hcount]

/-- C8 (amended): `Roll(n)` fails with InvalidArgument whenever n is
negative, the weight sum is zero, or some weight divided by the weight sum
is negative; and whenever n ≥ 0 on a die whose weights are all
non-negative with positive sum it returns exactly n values, every one
drawn from the die's face set. -/
theorem roll_spec (d : Die α) (n : ℤ) (rand : Nat → Nat) :
    ((n < 0 ∨ d.weights.sum = 0 ∨ ∃ w ∈ d.weights, w / d.weights.sum < 0) →
      d.roll n rand = .error .invalidArgument)
    ∧ (0 ≤ n → (∀ w ∈ d.weights, 0 ≤ w) → 0 < d.weights.sum →
      ∃ xs, d.roll n rand = .ok xs ∧ xs.length = n.toNat ∧
        ∀ x ∈ xs, x ∈ d.faces) := by
  constructor
  · intro hbad
    unfold Die.roll npChoice
    rcases hbad with hneg | hzero | ⟨w, hw, hwneg⟩
    · rw [if_pos hneg]
    · by_cases hn : n < 0
      · rw [if_pos hn]
      · have hanyn : ¬((d.weights.map fun w => w / d.weights.sum).any fun x =>
            decide (x < 0)) = true := by
          intro hcon
          rw [List.any_eq_true] at hcon
          obtain ⟨q, hq, hlt⟩ := hcon
          rw [List.mem_map] at hq
          obtain ⟨w, -, rfl⟩ := hq
          have hq2 := of_decide_eq_true hlt
          rw [hzero, div_zero] at hq2
          exact lt_irrefl 0 hq2
        have hsum0 : (d.weights.map fun w => w / d.weights.sum).sum = 0 := by
          rw [sum_map_div, hzero, zero_div]
        rw [if_neg hn, if_neg (by simp [Die.weights, Die.faces]),
          if_neg hanyn, if_pos (by rw [hsum0]; norm_num)]
    · by_cases hn : n < 0
      · rw [if_pos hn]
      · rw [if_neg hn, if_neg (by simp [Die.weights, Die.faces]),
          if_pos (by
            rw [List.any_eq_true]
            exact ⟨w / d.weights.sum, List.mem_map.mpr ⟨w, hw, rfl⟩,
              decide_eq_true hwneg⟩)]
  · intro hn hw hs
    exact roll_ok_of_nonneg d n rand hn hw hs

/-- C9: for every Analyzer constructed from a played Game, the stored
results are the snapshot taken at construction time, and a subsequent Play
call on the same Game leaves them unchanged: `Jackpot()`, `FaceCounts()`
and `Combo()` are computed from that snapshot alone, so they return the
same values before and after the replay. -/
theorem analyzer_snapshot_spec {g g' : Game α} {a : Analyzer α} {n : ℤ}
    {rand : Nat → Nat → Nat} (ha : Analyzer.make g = .ok a)
    (hp : g.play n rand = .ok g') :
    g.results = some a.results
    ∧ a.jackpot = Analyzer.jackpot ⟨(g.results).getD []⟩
    ∧ a.face_counts_per_roll = Analyzer.face_counts_per_roll ⟨(g.results).getD []⟩
    ∧ a.combo = Analyzer.combo ⟨(g.results).getD []⟩ := by
  have hres := make_ok_results ha
  rw [hres]
  exact ⟨rfl, rfl, rfl, rfl⟩

end MonteCarlo

namespace MonteCarlo

/-- C4 counterexample: a Game with no dice, played with n = 5, stores the
empty table (`pd.DataFrame({})`), whose row count is 0 and not 5, so the
claim "exactly n rows" fails at this input. -/
theorem play_empty_game_rows :
    Game.play (⟨[], none⟩ : Game ℤ) 5 rand0 = .ok ⟨[], some []⟩
    ∧ numRows ([] : List (List ℤ)) = 0 ∧ (0 : Nat) ≠ 5 :=
  ⟨rfl, rfl, by decide⟩

/-- C4 witness: the amended statement applied to the concrete game `gd0`
with n = 2 under `rand0`. -/
theorem play_show_results_wide_witness :
    (0 : ℤ) ≤ 2 ∧ Game.play gd0 2 rand0 = .ok gd1
    ∧ (∃ cols, gd1.show_results "wide" = .ok (.wide cols)
      ∧ cols.length = gd0.dice.length
      ∧ (∀ c ∈ cols, c.length = (2 : ℤ).toNat)
      ∧ (gd0.dice ≠ [] → numRows cols = (2 : ℤ).toNat)
      ∧ List.Forall₂ (fun (d : Die ℤ) c => ∀ x ∈ c, x ∈ d.faces) gd0.dice cols
      ∧ ∀ r0 : Option (List (List ℤ)),
          Game.play ⟨gd0.dice, r0⟩ 2 rand0 = .ok ⟨gd0.dice, some cols⟩) :=
  ⟨by decide, play_gd0_eval, play_show_results_wide_spec (by decide) play_gd0_eval⟩

/-- C5 witness: the narrow-form statement applied to the concrete game
`gd0` with n = 2 under `rand0`. -/
theorem show_results_narrow_witness :
    (0 : ℤ) ≤ 2 ∧ Game.play gd0 2 rand0 = .ok gd1
    ∧ (∃ cols nt, gd1.results = some cols
      ∧ gd1.show_results "narrow" = .ok (.narrow nt)
      ∧ nt.length = gd0.dice.length * (2 : ℤ).toNat
      ∧ ∀ i j, i < (2 : ℤ).toNat → j < gd0.dice.length →
          nt.filter (fun t => t.1 == i && t.2.1 == j)
            = [(i, j, (cols.getD j []).getD i default)]) :=
  ⟨by decide, play_gd0_eval, show_results_narrow_spec (by decide) play_gd0_eval⟩

/-- C3 witness: the jackpot statement applied to the analyzer of the
concrete played single-die game. -/
theorem jackpot_witness :
    Game.play gd0 2 rand0 = .ok gd1 ∧ Analyzer.make gd1 = .ok a1
    ∧ (a1.jackpot ≤ numRows a1.results
      ∧ a1.jackpot = ((rowsOf a1.results).filter fun row =>
          decide (∀ x ∈ row, ∀ y ∈ row, x = y)).length
      ∧ (gd0.dice.length = 1 → a1.jackpot = numRows a1.results)) :=
  ⟨play_gd0_eval, make_gd1_eval, jackpot_spec play_gd0_eval make_gd1_eval⟩

/-- C1 witness: the combo statement applied to the analyzer `a1`, whose
snapshot `[[1, 1]]` has two non-empty rows. -/
theorem combo_witness :
    Analyzer.make gd1 = .ok a1 ∧ rowsOf a1.results ≠ []
    ∧ (((a1.combo.map Prod.snd).sum = numRows a1.results)
      ∧ (a1.combo.map Prod.fst).Nodup
      ∧ (∀ p ∈ a1.combo, ∃ r ∈ rowsOf a1.results,
          p.1 = List.insertionSort (· ≤ ·) r)
      ∧ ∀ r ∈ rowsOf a1.results,
          (List.insertionSort (· ≤ ·) r,
            ((rowsOf a1.results).filter fun r2 => decide (r2.Perm r)).length)
            ∈ a1.combo) :=
  ⟨make_gd1_eval, by decide, combo_spec make_gd1_eval (by decide)⟩

/-- C9 witness: the snapshot statement applied to the analyzer `a1` of
`gd1` and a subsequent replay of `gd1`. -/
theorem analyzer_snapshot_witness :
    Analyzer.make gd1 = .ok a1 ∧ Game.play gd1 1 rand0 = .ok gd2
    ∧ (gd1.results = some a1.results
      ∧ a1.jackpot = Analyzer.jackpot ⟨(gd1.results).getD []⟩
      ∧ a1.face_counts_per_roll
          = Analyzer.face_counts_per_roll ⟨(gd1.results).getD []⟩
      ∧ a1.combo = Analyzer.combo ⟨(gd1.results).getD []⟩) :=
  ⟨make_gd1_eval, play_gd1_eval, analyzer_snapshot_spec make_gd1_eval play_gd1_eval⟩

/-- C8 counterexample: `dNeg` is reached from `Die([1, 2])` by two
`change_weight` calls and has weight sum -2, not positive, yet `Roll(1)`
succeeds (numpy normalizes (-1)/(-2) to the valid probability 1/2); `dMix` has
the positive weight sum 2, yet `Roll(1)` fails with InvalidArgument (its
normalized probabilities contain the negative entry -1/2). Both halves of
the claim are therefore false as stated. -/
theorem roll_weight_sum_counterexample :
    ((Die.init ([1, 2] : List ℤ)).change_weight 1 (-1) = .ok ⟨[(1, -1), (2, 1)]⟩)
    ∧ ((⟨[(1, -1), (2, 1)]⟩ : Die ℤ).change_weight 2 (-1) = .ok dNeg)
    ∧ dNeg.weights.sum = -2
    ∧ dNeg.roll 1 (fun _ => 0) = .ok [1]
    ∧ dMix.weights.sum = 2
    ∧ dMix.roll 1 (fun _ => 0) = .error .invalidArgument := by
  refine ⟨rfl, rfl, by norm_num [dNeg, Die.weights], ?_,
    by norm_num [dMix, Die.weights], ?_⟩
  · unfold dNeg Die.roll Die.weights Die.faces npChoice
    norm_num [List.range_succ]
  · unfold dMix Die.roll Die.weights Die.faces npChoice
    norm_num

/-- C6: evaluation at the failing input `Die([1, 1])` — the constructor
accepts the duplicate faces and returns a die holding both duplicate rows,
each at weight 1.0, instead of raising as its docstring promises. -/
theorem die_init_accepts_duplicate_faces :
    Die.init ([1, 1] : List ℤ) = ⟨[(1, 1), (1, 1)]⟩
    ∧ ∀ fw ∈ (Die.init ([1, 1] : List ℤ)).die, fw.2 = 1 :=
  ⟨rfl, by decide⟩

/-- C7: evaluation at the failing input — `change_weight(1, -5)` on
`Die([1, 2])` silently accepts the invalid negative weight and stores it
(leaving the other face untouched), while the `NotFound` half of the
contract does hold for an absent face. -/
theorem change_weight_accepts_negative :
    (Die.init ([1, 2] : List ℤ)).change_weight 1 (-5) = .ok ⟨[(1, -5), (2, 1)]⟩
    ∧ (Die.init ([1, 2] : List ℤ)).change_weight 3 7 = .error .notFound :=
  ⟨rfl, rfl⟩

end MonteCarlo
